import Mathlib

/-!
Verification of the monster-statistics extraction/conversion utility
(`html_to_json.py` and `json_to_csv.py`).

The Python sources are shallowly embedded below.  Conventions of the
embedding:

* Python `str` is Lean `String` (a list of `Char`s); the helpers are defined
  on `List Char` and wrapped.  Case mapping (`str.lower`, `str.upper`,
  `str.capitalize`) is modelled on the ASCII range, and the whitespace class
  (`\s`, `str.strip`, `str.split`) by `Char.isWhitespace`; the repository's
  documents are ASCII, and no claim depends on non-ASCII case folding.
* `html.unescape` (entity decoding) is modelled as the identity: it is applied
  under `clean`, whose whitespace collapse runs after it, so every property
  proved here about `clean`ed values holds for any decoded text.
* BeautifulSoup is the external markup parser (out of scope per the spec).
  A parsed document is modelled by the queries the code performs on it:
  the text of the first `h1`/`h2` element, each `tr`'s cell children, each
  `li`'s first `strong` text plus its own text, each `p`'s `em` texts, and
  the document's text nodes.
* Fallible Python code (`AttributeError`, `ValueError`) is `Except String`;
  a skipped document (`return None`) is `Option.none`.
* The tabulator's file handling and the `csv` module's quoting are out of
  scope; its output is modelled as a header row plus one list of cell values
  per record (`DictWriter` with `restval=""` and `extrasaction="ignore"`).
-/

/-! ## ASCII case mapping (model of Python `str.lower` / `str.upper`) -/

def lowerChar : Char → Char
  | 'A' => 'a' | 'B' => 'b' | 'C' => 'c' | 'D' => 'd' | 'E' => 'e'
  | 'F' => 'f' | 'G' => 'g' | 'H' => 'h' | 'I' => 'i' | 'J' => 'j'
  | 'K' => 'k' | 'L' => 'l' | 'M' => 'm' | 'N' => 'n' | 'O' => 'o'
  | 'P' => 'p' | 'Q' => 'q' | 'R' => 'r' | 'S' => 's' | 'T' => 't'
  | 'U' => 'u' | 'V' => 'v' | 'W' => 'w' | 'X' => 'x' | 'Y' => 'y'
  | 'Z' => 'z'
  | c => c

def upperChar : Char → Char
  | 'a' => 'A' | 'b' => 'B' | 'c' => 'C' | 'd' => 'D' | 'e' => 'E'
  | 'f' => 'F' | 'g' => 'G' | 'h' => 'H' | 'i' => 'I' | 'j' => 'J'
  | 'k' => 'K' | 'l' => 'L' | 'm' => 'M' | 'n' => 'N' | 'o' => 'O'
  | 'p' => 'P' | 'q' => 'Q' | 'r' => 'R' | 's' => 'S' | 't' => 'T'
  | 'u' => 'U' | 'v' => 'V' | 'w' => 'W' | 'x' => 'X' | 'y' => 'Y'
  | 'z' => 'Z'
  | c => c

/-! ## Generic character-list helpers -/

/-- Python `str.strip` / `str.lstrip` with no argument (leading part). -/
def lstripL (cs : List Char) : List Char := cs.dropWhile Char.isWhitespace

/-- Python `str.strip`: drop leading and trailing whitespace. -/
def pyStripL (cs : List Char) : List Char :=
  ((cs.dropWhile Char.isWhitespace).reverse.dropWhile Char.isWhitespace).reverse

def pyStrip (s : String) : String := String.mk (pyStripL s.data)

/-- `re.sub(r"\s+", " ", ·)`: replace every maximal whitespace run by one
space.  The flag records whether the previous character was whitespace
(i.e. the single space for the current run was already emitted). -/
def collapseWsAux : List Char → Bool → List Char
  | [], _ => []
  | c :: rest, inRun =>
    if c.isWhitespace then
      if inRun then collapseWsAux rest true else ' ' :: collapseWsAux rest true
    else c :: collapseWsAux rest false

def collapseWsL (cs : List Char) : List Char := collapseWsAux cs false

/-- First maximal run of characters satisfying `p` (model of
`re.search` on a `[...]+` character-class pattern). -/
def firstRunL (p : Char → Bool) (cs : List Char) : List Char :=
  (cs.dropWhile (fun c => !p c)).takeWhile p

/-- Prefix of `cs` before the first occurrence of `pat`
(`s.split(pat)[0]`); the whole list when `pat` does not occur. -/
def takeUntilPat (pat : List Char) : List Char → List Char
  | [] => []
  | c :: rest =>
    if pat.isPrefixOf (c :: rest) then [] else c :: takeUntilPat pat rest

/-- Python's `pat in s` substring test. -/
def containsPat (pat : List Char) : List Char → Bool
  | [] => pat.isEmpty
  | c :: rest => pat.isPrefixOf (c :: rest) || containsPat pat rest

/-- Python `str.replace(old, new)`: replace every (non-overlapping,
leftmost-first) occurrence.  With an empty pattern and an empty
replacement Python returns the string unchanged, as does this model.
The recursion is driven by a fuel counter initialised to the input
length (`replaceL` below), since a match consumes at least one character
— this keeps the definition structurally recursive. -/
def replaceLFuel (pat rep : List Char) : Nat → List Char → List Char
  | 0, cs => cs
  | _ + 1, [] => []
  | n + 1, c :: rest =>
    if pat ≠ [] ∧ pat.isPrefixOf (c :: rest) = true then
      rep ++ replaceLFuel pat rep n ((c :: rest).drop pat.length)
    else c :: replaceLFuel pat rep n rest

def replaceL (pat rep cs : List Char) : List Char :=
  replaceLFuel pat rep cs.length cs

/-- Python `str.split()` (no argument): maximal non-whitespace runs.
The accumulator holds the current token, reversed. -/
def wsTokensAux : List Char → List Char → List (List Char)
  | [], acc => if acc.isEmpty then [] else [acc.reverse]
  | c :: rest, acc =>
    if c.isWhitespace then
      if acc.isEmpty then wsTokensAux rest [] else acc.reverse :: wsTokensAux rest []
    else wsTokensAux rest (c :: acc)

def wsTokens (cs : List Char) : List (List Char) := wsTokensAux cs []

/-- Python `str.endswith`. -/
def pyEndsWith (s suffix : String) : Bool := suffix.data.isSuffixOf s.data

/-- Code-point lexicographic order on character lists (Python string `<=`). -/
def lexLe : List Char → List Char → Bool
  | x :: xs, y :: ys =>
    if x.toNat < y.toNat then true
    else if y.toNat < x.toNat then false
    else lexLe xs ys
  | [], _ => true
  | _, [] => false

def strLe (a b : String) : Bool := lexLe a.data b.data

/-! ## Shared field-normalisation helpers (`html_to_json.py`) -/

/-- `clean(txt)`: `re.sub(r"\s+", " ", html.unescape(txt or "")).strip()`.
Entity decoding is modelled as the identity (see the header comment). -/
def clean (s : String) : String := String.mk (pyStripL (collapseWsL s.data))

/-- The trailing-punctuation class of `normalise` and the leading class of
`strip_leading_punct`: colon, en dash, em dash, hyphen. -/
def labelPunct (c : Char) : Bool := c == ':' || c == '–' || c == '—' || c == '-'

/-- `re.sub(r"[:–—-]\s*$", "", ·)`: remove one trailing punctuation
character together with any whitespace after it. -/
def stripTrailingLabelPunct (cs : List Char) : List Char :=
  match cs.reverse.dropWhile Char.isWhitespace with
  | c :: tail => if labelPunct c then tail.reverse else cs
  | [] => cs

/-- `normalise(label)`: lower-case a header label and strip trailing
punctuation. -/
def normalise (label : String) : String :=
  String.mk (stripTrailingLabelPunct ((clean label).data.map lowerChar))

/-- `strip_leading_punct`: `re.sub(r"^[\s:–—-]+\s*", "", ·)`, i.e. drop the
maximal leading run of whitespace/colon/dash characters. -/
def strip_leading_punct (s : String) : String :=
  String.mk (s.data.dropWhile (fun c => c.isWhitespace || labelPunct c))

/-- Python `str.capitalize`: first character upper-cased, the rest
lower-cased (ASCII model). -/
def pyCapitalize (s : String) : String :=
  match s.data with
  | [] => ""
  | c :: rest => String.mk (upperChar c :: rest.map lowerChar)

/-- `_CANON_TYPES`: the SRD creature-type names keyed by lower-case form. -/
def canonTypeTable : List (String × String) :=
  [("aberration", "Aberration"), ("beast", "Beast"), ("celestial", "Celestial"),
   ("construct", "Construct"), ("dragon", "Dragon"), ("elemental", "Elemental"),
   ("fey", "Fey"), ("fiend", "Fiend"), ("giant", "Giant"),
   ("humanoid", "Humanoid"), ("monstrosity", "Monstrosity"), ("ooze", "Ooze"),
   ("plant", "Plant"), ("swarm", "Swarm"), ("undead", "Undead")]

/-- First-match association-list lookup (Python `dict` access). -/
def lookupRows : List (String × String) → String → Option String
  | [], _ => none
  | (k', v) :: rest, k => if k' = k then some v else lookupRows rest k

/-- `canonical_type(txt)`: look the stripped, lower-cased text up in
`_CANON_TYPES`; fall back to `txt.capitalize()`. -/
def canonical_type (txt : String) : String :=
  match lookupRows canonTypeTable (String.mk ((pyStripL txt.data).map lowerChar)) with
  | some v => v
  | none => pyCapitalize txt

/-- `number_only(text)`: the first run of ASCII digits, or `""`. -/
def number_only (text : String) : String :=
  String.mk (firstRunL Char.isDigit text.data)

/-- The `_CR_RE` token: first maximal run of `[\d./]` characters. -/
def crToken (text : String) : String :=
  String.mk (firstRunL (fun c => c.isDigit || c == '.' || c == '/') text.data)

/-- `SIZE_WORDS`. -/
def SIZE_WORDS : List String :=
  ["tiny", "small", "medium", "large", "huge", "gargantuan"]

/-- `extract_type_from_em(em_text)`: drop everything from the first comma,
split into whitespace tokens, drop size words, re-join with spaces. -/
def extract_type_from_em (em_text : String) : String :=
  let base := takeUntilPat [','] em_text.data
  let tokens := (wsTokens base).filter
    (fun t => !(SIZE_WORDS.contains (String.mk (t.map lowerChar))))
  clean (String.mk (List.intercalate [' '] tokens))

/-- Python dict assignment on an association list: overwrite the existing
key in place, otherwise append. -/
def dictSet : List (String × String) → String → String → List (String × String)
  | [], k, v => [(k, v)]
  | (k', v') :: rest, k, v =>
    if k' = k then (k, v) :: rest else (k', v') :: dictSet rest k v

/-! ## The HTML document model and `parse_html` -/

structure MonsterRecord where
  name : String
  cr : String
  ac : String
  hp : String
  languages : String
  type : String
  skills : String
  gear : String
  source : String
  hasLegendaryActions : String
  file : String
deriving DecidableEq

inductive CellTag where
  | th
  | td
deriving DecidableEq

/-- One cell of a table row: its tag and its `get_text()`. -/
structure Cell where
  tag : CellTag
  text : String

/-- One `li` element: the text of its first `strong` descendant (if any)
and its own `get_text()`. -/
structure LiItem where
  strong : Option String
  text : String

/-- A parsed HTML document, modelled by the BeautifulSoup queries
`parse_html` performs (see the header comment). -/
structure HtmlDoc where
  /-- `soup.select_one("h1, h2")`, as the text of that element. -/
  heading : Option String
  /-- `soup.find_all("tr")`, each row as its cell children in order. -/
  trs : List (List Cell)
  /-- `soup.find_all("li")`. -/
  lis : List LiItem
  /-- `soup.find_all("p")`, each paragraph as the texts of its `em`s. -/
  paras : List (List String)
  /-- The document's text nodes, for `soup.find(string=...)`. -/
  strings : List String

/-- `tr.find("th") or tr.find("td")`: the first cell with the tag,
returned with the cells after it. -/
def findCell (t : CellTag) : List Cell → Option (String × List Cell)
  | [] => none
  | c :: rest => if c.tag = t then some (c.text, rest) else findCell t rest

/-- `hdr.find_next_sibling("td")`. -/
def nextTd : List Cell → Option String
  | [] => none
  | c :: rest => if c.tag = .td then some c.text else nextTd rest

/-- The header/data pair extracted from one table row, when both exist. -/
def rowEntry (cells : List Cell) : Option (String × String) :=
  match (findCell .th cells).orElse (fun _ => findCell .td cells) with
  | some (hdrTxt, rest) =>
    match nextTd rest with
    | some dataTxt => some (hdrTxt, dataTxt)
    | none => none
  | none => none

/-- Python `str.replace` on `String`s. -/
def pyReplace (s pat rep : String) : String :=
  String.mk (replaceL pat.data rep.data s.data)

/-- The `rows` mapping of `parse_html`: table rows first, then bullet
rows, later entries overwriting earlier ones. -/
def buildRows (doc : HtmlDoc) : List (String × String) :=
  let afterTables := doc.trs.foldl
    (fun d cells =>
      match rowEntry cells with
      | some (h, v) => dictSet d (normalise h) (strip_leading_punct (clean v))
      | none => d)
    []
  doc.lis.foldl
    (fun d li =>
      match li.strong with
      | some sTxt =>
        dictSet d (normalise sTxt)
          (strip_leading_punct (clean (pyReplace li.text sTxt "")))
      | none => d)
    afterTables

/-- `rows.get("cr") or rows.get("challenge rating", "")` (the `or` also
falls through on an empty string). -/
def crRaw (rows : List (String × String)) : String :=
  match lookupRows rows "cr" with
  | some v => if v = "" then (lookupRows rows "challenge rating").getD "" else v
  | none => (lookupRows rows "challenge rating").getD ""

/-- The type-scan loop of `parse_html`: with two or more `em`s the loop
breaks unconditionally on the second one's cleaned text; with exactly one
it breaks only when `extract_type_from_em` yields something non-empty. -/
def findTypeTxt : List (List String) → String
  | [] => ""
  | ems :: rest =>
    match ems with
    | [] => findTypeTxt rest
    | [single] =>
      let candidate := extract_type_from_em single
      if candidate = "" then findTypeTxt rest else candidate
    | _ :: second :: _ => clean second

/-- `type_txt.split("(", 1)[0].strip()` followed by `canonical_type`. -/
def typeFinal (t : String) : String :=
  canonical_type (String.mk (pyStripL (takeUntilPat ['('] t.data)))

def legendaryPhrase : List Char := "legendary actions".data

/-- `\w` of Python `re` (ASCII model). -/
def wordCharB (c : Char) : Bool := c.isAlphanum || c == '_'

/-- If the case-folded prefix of `cs` equals `pat`, the remainder. -/
def startsWithCI (pat : List Char) : List Char → Option (List Char)
  | rest =>
    match pat, rest with
    | [], rest => some rest
    | _ :: _, [] => none
    | p :: ps, c :: cs => if lowerChar c == p then startsWithCI ps cs else none

/-- `re.search(r"\blegendary actions\b", ·, re.I)` on one text node:
scan every position; a match needs a non-word character (or the start)
before it and a non-word character (or the end) after it.  `prevIsWord`
records whether the previous character was a word character. -/
def legSearch (prevIsWord : Bool) : List Char → Bool
  | [] => false
  | c :: rest =>
    (if prevIsWord then false
     else
       match startsWithCI legendaryPhrase (c :: rest) with
       | some rem =>
         match rem with
         | [] => true
         | d :: _ => !wordCharB d
       | none => false)
    || legSearch (wordCharB c) rest

/-- `parse_html(path)`.  `stem`/`fileName` are `path.stem`/`path.name`.
`Except.error` models the uncaught `AttributeError` raised by
`(soup.select_one("h1, h2") or {}).get_text()` when no heading exists;
`Except.ok none` models the skip on a missing CR. -/
def parse_html (doc : HtmlDoc) (stem fileName : String) :
    Except String (Option MonsterRecord) :=
  match doc.heading with
  | none => .error "AttributeError: dict object has no attribute get_text"
  | some htext =>
    let name := clean (if htext = "" then stem else htext)
    let rows := buildRows doc
    let cr := crToken (crRaw rows)
    if cr = "" then .ok none
    else
      let type_txt := typeFinal (findTypeTxt doc.paras)
      let ac := number_only ((lookupRows rows "armor class").getD "")
      let hp := number_only ((lookupRows rows "hit points").getD "")
      let languages := (lookupRows rows "languages").getD ""
      let skills := pyReplace ((lookupRows rows "skills").getD "") "," ";"
      let gear := (lookupRows rows "gear").getD ""
      let src_raw := (lookupRows rows "source").getD ""
      let source0 :=
        if containsPat " page".data src_raw.data then
          String.mk (takeUntilPat " page".data src_raw.data)
        else src_raw
      let source := if pyEndsWith stem "_mm_2024" then "WotC SRD 5.2" else source0
      let has_leg := doc.strings.any (fun s => legSearch false s.data)
      .ok (some
        { name := name, cr := cr, ac := ac, hp := hp, languages := languages,
          type := type_txt, skills := skills, gear := gear, source := source,
          hasLegendaryActions := if has_leg then "Yes" else "No",
          file := fileName })

/-! ## The Markdown parser -/

/-- Python `str.splitlines`, restricted to the ASCII terminators
`\n`/`\r` (`\r\n` yields an extra empty segment, which the blank-line
filter below discards, as `splitlines` would). -/
def splitLinesL : List Char → List (List Char)
  | [] => [[]]
  | c :: rest =>
    if c = '\n' ∨ c = '\r' then [] :: splitLinesL rest
    else
      match splitLinesL rest with
      | s :: ss => (c :: s) :: ss
      | [] => [[c]]

/-- `[l.strip() for l in text.splitlines() if l.strip()]`. -/
def pyLines (text : String) : List String :=
  ((splitLinesL text.data).map (fun l => String.mk (pyStripL l))).filter
    (fun l => l ≠ "")

/-- The `\s*(.+)$` part of `_MD_FIELD_RE` (with backtracking): the maximal
whitespace prefix such that at least one character remains. -/
def restAfterWs (cs : List Char) : Option (List Char) :=
  match cs.dropWhile Char.isWhitespace with
  | d :: ds => some (d :: ds)
  | [] =>
    match cs.getLast? with
    | some c => some [c]
    | none => none

/-- The `[:,]?\s*(.+)$` part of `_MD_FIELD_RE`, applied to the text after
the closing `**`; backtracks over the optional punctuation. -/
def matchFieldTail (cs : List Char) : Option (List Char) :=
  match cs with
  | [] => none
  | c :: rest =>
    if c = ':' ∨ c = ',' then
      match restAfterWs rest with
      | some g => some g
      | none => restAfterWs (c :: rest)
    else restAfterWs (c :: rest)

/-- The lazy group of `\*\*(.+?)\*\*...`: grow the label one character at
a time; after each character, if `**` follows and the tail matches,
stop.  `acc` is the label so far, reversed. -/
def mdFieldAux (acc : List Char) : List Char → Option (List Char × List Char)
  | [] => none
  | c :: rest =>
    match rest with
    | '*' :: '*' :: tail =>
      match matchFieldTail tail with
      | some v => some ((c :: acc).reverse, v)
      | none => mdFieldAux (c :: acc) rest
    | _ => mdFieldAux (c :: acc) rest

/-- `_MD_FIELD_RE.match(ln)`: `^\*\*(.+?)\*\*[:,]?\s*(.+)$`. -/
def mdFieldMatch (ln : String) : Option (String × String) :=
  match ln.data with
  | '*' :: '*' :: rest =>
    (mdFieldAux [] rest).map (fun g => (String.mk g.1, String.mk g.2))
  | _ => none

/-- The `fields` mapping of `parse_md`. -/
def mdFields (text : String) : List (String × String) :=
  (pyLines text).foldl
    (fun d ln =>
      match mdFieldMatch ln with
      | some (lab, val) =>
        dictSet d (normalise lab) (strip_leading_punct (pyStrip val))
      | none => d)
    []

/-- `_ITALIC_RE.findall(line)[0]`: the first `[_*](.+?)[_*]` group.
`italicClose` finds the lazy group from a fixed opening marker;
`firstItalic` advances the starting position on failure. -/
def italicClose (acc : List Char) : List Char → Option (List Char)
  | [] => none
  | c :: rest =>
    if (c = '_' ∨ c = '*') ∧ acc ≠ [] then some acc.reverse
    else italicClose (c :: acc) rest

def firstItalic : List Char → Option (List Char)
  | [] => none
  | c :: rest =>
    if c = '_' ∨ c = '*' then
      match italicClose [] rest with
      | some g => some g
      | none => firstItalic rest
    else firstItalic rest

/-- `fields.get("cr") or fields.get("challenge rating")`, with Python's
falsy `None`/`""` both modelled as `""`. -/
def mdCr (text : String) : String := crRaw (mdFields text)

/-- `parse_md(path)`; `none` models the skip on a missing CR. -/
def parse_md (text stem fileName : String) : Option MonsterRecord :=
  let lines := pyLines text
  let fields := mdFields text
  let cr := mdCr text
  if cr = "" then none
  else
    let ac := number_only ((lookupRows fields "armor class").getD "")
    let hp := number_only ((lookupRows fields "hit points").getD "")
    let languages := (lookupRows fields "languages").getD ""
    let skills := pyReplace ((lookupRows fields "skills").getD "") "," ";"
    let gear := (lookupRows fields "gear").getD ""
    let type0 := (lookupRows fields "type").getD ""
    let type1 :=
      if type0 = "" ∧ 1 < lines.length then
        match firstItalic (lines.getD 1 "").data with
        | some it => extract_type_from_em (String.mk it)
        | none => type0
      else type0
    let src0 := (lookupRows fields "source").getD ""
    let source :=
      if pyEndsWith stem "_mm_2024" then "WotC SRD 5.2"
      else if containsPat " page".data src0.data then
        String.mk (takeUntilPat " page".data src0.data)
      else src0
    let has_leg := lines.any
      (fun ln => containsPat legendaryPhrase (ln.data.map lowerChar))
    some
      { name := clean (String.mk ((lines.headD "").data.dropWhile (· = '#'))),
        cr := cr, ac := ac, hp := hp, languages := languages,
        type := typeFinal type1, skills := skills, gear := gear,
        source := source,
        hasLegendaryActions := if has_leg then "Yes" else "No",
        file := fileName }

/-! ## The tabulator (`json_to_csv.py`) -/

/-- A decoded JSON value (`json.load`); numbers are modelled as integers,
which covers every value the extractor emits. -/
inductive JValue where
  | null : JValue
  | bool : Bool → JValue
  | num : Int → JValue
  | str : String → JValue
  | arr : List JValue → JValue
  | obj : List (String × JValue) → JValue

/-- Python `dict.get` on a JSON object. -/
def objGet : List (String × JValue) → String → Option JValue
  | [], _ => none
  | (k', v) :: rest, k => if k' = k then some v else objGet rest k

/-- Python dict assignment on a JSON object. -/
def objSet : List (String × JValue) → String → JValue → List (String × JValue)
  | [], k, v => [(k, v)]
  | (k', v') :: rest, k, v =>
    if k' = k then (k, v) :: rest else (k', v') :: objSet rest k v

/-- `not isinstance(gear_val, str) or not gear_val.strip()`. -/
def gearBlank : JValue → Bool
  | .str s => pyStrip s == ""
  | _ => true

/-- The body of `normalize_gear` for one record; `rec.get` on a non-dict
raises `AttributeError`. -/
def norm1 : JValue → Except String JValue
  | .obj fields =>
    if gearBlank ((objGet fields "gear").getD (.str "")) then
      .ok (.obj (objSet fields "gear" (.str "None")))
    else .ok (.obj fields)
  | _ => .error "AttributeError: object has no attribute get"

/-- `normalize_gear(records)`. -/
def normalize_gear : List JValue → Except String (List JValue)
  | [] => .ok []
  | r :: rest =>
    match norm1 r with
    | .error e => .error e
    | .ok r' =>
      match normalize_gear rest with
      | .error e => .error e
      | .ok rest' => .ok (r' :: rest')

/-- The keys of one record (`for k in r`). -/
def recKeys : JValue → List String
  | .obj fields => fields.map Prod.fst
  | _ => []

/-- `build_fieldnames(records)`: the set of all keys, `gear` removed,
sorted, with `gear` appended last.  `dedup`+`filter` model the Python
`set` with `gear` discarded; `strLe` is Python's string order (sorting a
duplicate-free list, any correct sort gives `sorted(keys)`). -/
def build_fieldnames (records : List JValue) : List String :=
  (List.insertionSort (fun a b => strLe a b = true)
      ((records.flatMap recKeys).dedup.filter (fun k => k ≠ "gear")))
    ++ ["gear"]

/-- One CSV cell: `rec.get(fieldname, restval="")`. -/
def getField (r : JValue) (f : String) : JValue :=
  match r with
  | .obj fields => (objGet fields f).getD (.str "")
  | _ => .str ""

/-- The written CSV, as the header row plus one cell list per record. -/
structure CsvOut where
  header : List String
  rows : List (List JValue)

/-- `json_to_csv` after `json.load`: validate the top-level shape,
normalise gear, build the header, emit the rows.  An `Except.error`
means the fatal error is raised before anything is written. -/
def json_to_csv (data : JValue) : Except String CsvOut :=
  match data with
  | .arr recs =>
    match normalize_gear recs with
    | .error e => .error e
    | .ok recs2 =>
      let fieldnames := build_fieldnames recs2
      .ok ⟨fieldnames, recs2.map (fun r => fieldnames.map (getField r))⟩
  | _ => .error "JSON must be a top-level array of objects"

/-- What `__main__` does: either exit with a usage message (status 1,
nothing read or written — `sys.exit(str)` prints the string and exits
with code 1) or call `json_to_csv` on the given paths. -/
inductive MainOutcome where
  | usageExit : String → Nat → MainOutcome
  | convert : String → Option String → MainOutcome

/-- `pathlib.Path(p).name` (POSIX model): the part after the last slash. -/
def basenameOf (p : String) : String :=
  String.mk ((p.data.reverse.takeWhile (fun c => c ≠ '/')).reverse)

/-- `if not 2 <= len(sys.argv) <= 3: sys.exit(usage)`; `argv` includes the
program name. -/
def tabulatorMain (argv : List String) : MainOutcome :=
  if 2 ≤ argv.length ∧ argv.length ≤ 3 then
    .convert (argv.getD 1 "") (argv.get? 2)
  else
    .usageExit
      ("Usage:  python " ++ basenameOf (argv.headD "") ++ " input.json [output.csv]")
      1

/-! ## Support lemmas: the string order -/

theorem lexLe_total : ∀ a b : List Char, lexLe a b = true ∨ lexLe b a = true := by
  intro a
  induction a with
  | nil => intro b; left; simp [lexLe]
  | cons x xs ih =>
    intro b
    cases b with
    | nil => right; simp [lexLe]
    | cons y ys =>
      rcases Nat.lt_trichotomy x.toNat y.toNat with h | h | h
      · left; simp [lexLe, h]
      · have h1 : ¬ x.toNat < y.toNat := by omega
        have h2 : ¬ y.toNat < x.toNat := by omega
        rcases ih ys with h3 | h3
        · left; simp [lexLe, h1, h2, h3]
        · right; simp [lexLe, h1, h2, h3]
      · right; simp [lexLe, h]

theorem lexLe_trans :
    ∀ a b c : List Char, lexLe a b = true → lexLe b c = true → lexLe a c = true := by
  intro a
  induction a with
  | nil => intro b c _ _; simp [lexLe]
  | cons x xs ih =>
    intro b c hab hbc
    cases b with
    | nil => simp [lexLe] at hab
    | cons y ys =>
      cases c with
      | nil => simp [lexLe] at hbc
      | cons z zs =>
        simp only [lexLe] at hab hbc ⊢
        rcases Nat.lt_trichotomy x.toNat z.toNat with h | h | h
        · simp [h]
        · have h1 : ¬ x.toNat < z.toNat := by omega
          have h2 : ¬ z.toNat < x.toNat := by omega
          simp only [h1, if_neg, if_false, h2, ite_false, ite_true, if_pos, if_true]
          split at hab
          · -- x < y; then from hbc either y < z (contradiction with x = z ≤ y) or ...
            rename_i hxy
            split at hbc
            · rename_i hyz; omega
            · split at hbc
              · exact absurd hbc (by simp)
              · rename_i hyz hzy; omega
          · split at hab
            · exact absurd hab (by simp)
            · rename_i hxy hyx
              split at hbc
              · rename_i hyz; omega
              · split at hbc
                · exact absurd hbc (by simp)
                · rename_i hyz hzy
                  have hx : x.toNat = y.toNat := by omega
                  exact ih ys zs hab hbc
        · -- z < x: show lexLe (x::xs) (z::zs) = true leads to contradiction
          exfalso
          split at hab
          · rename_i hxy
            split at hbc
            · rename_i hyz; omega
            · split at hbc
              · exact absurd hbc (by simp)
              · rename_i hyz hzy; omega
          · split at hab
            · exact absurd hab (by simp)
            · rename_i hxy hyx
              split at hbc
              · rename_i hyz; omega
              · split at hbc
                · exact absurd hbc (by simp)
                · rename_i hyz hzy; omega

theorem strLe_trans (a b c : String) (h1 : strLe a b = true) (h2 : strLe b c = true) :
    strLe a c = true := lexLe_trans a.data b.data c.data h1 h2

theorem strLe_total (a b : String) : (strLe a b || strLe b a) = true := by
  rcases lexLe_total a.data b.data with h | h <;> simp [strLe, h]

instance : IsTotal String (fun a b => strLe a b = true) :=
  ⟨fun a b => by
    rcases lexLe_total a.data b.data with h | h
    · exact Or.inl h
    · exact Or.inr h⟩

instance : IsTrans String (fun a b => strLe a b = true) :=
  ⟨fun a b c h1 h2 => strLe_trans a b c h1 h2⟩

/-! ## Support lemmas: `normalize_gear` -/

theorem objGet_objSet_self (fields : List (String × JValue)) (k : String) (v : JValue) :
    objGet (objSet fields k v) k = some v := by
  induction fields with
  | nil => simp [objSet, objGet]
  | cons p rest ih =>
    obtain ⟨k', v'⟩ := p
    by_cases h : k' = k
    · simp [objSet, objGet, h]
    · simp [objSet, objGet, h, ih]

theorem norm1_ok_gear (r r' : JValue) (h : norm1 r = .ok r') :
    ∃ fields s, r' = JValue.obj fields ∧
      objGet fields "gear" = some (JValue.str s) ∧ pyStrip s ≠ "" := by
  cases r with
  | obj fields =>
    by_cases hb : gearBlank ((objGet fields "gear").getD (JValue.str "")) = true
    · rw [norm1, if_pos hb] at h
      obtain rfl : JValue.obj (objSet fields "gear" (JValue.str "None")) = r' :=
        by injection h
      exact ⟨_, "None", rfl, objGet_objSet_self fields "gear" (JValue.str "None"),
        by decide⟩
    · rw [norm1, if_neg hb] at h
      obtain rfl : JValue.obj fields = r' := by injection h
      cases hg : objGet fields "gear" with
      | none => rw [hg] at hb; exact absurd rfl hb
      | some v =>
        cases v with
        | str s =>
          have hs : pyStrip s ≠ "" := by
            rw [hg] at hb
            simpa [gearBlank] using hb
          exact ⟨fields, s, rfl, hg, hs⟩
        | null => rw [hg] at hb; exact absurd rfl hb
        | bool b => rw [hg] at hb; exact absurd rfl hb
        | num n => rw [hg] at hb; exact absurd rfl hb
        | arr xs => rw [hg] at hb; exact absurd rfl hb
        | obj gs => rw [hg] at hb; exact absurd rfl hb
  | null => exact absurd h (by simp [norm1])
  | bool b => exact absurd h (by simp [norm1])
  | num n => exact absurd h (by simp [norm1])
  | str s => exact absurd h (by simp [norm1])
  | arr xs => exact absurd h (by simp [norm1])

theorem normalize_gear_ok_mem (recs recs2 : List JValue)
    (h : normalize_gear recs = .ok recs2) (r : JValue) (hr : r ∈ recs2) :
    ∃ fields s, r = JValue.obj fields ∧
      objGet fields "gear" = some (JValue.str s) ∧ pyStrip s ≠ "" := by
  induction recs generalizing recs2 with
  | nil =>
    rw [normalize_gear] at h
    obtain rfl : ([] : List JValue) = recs2 := by injection h
    cases hr
  | cons a rest ih =>
    rw [normalize_gear] at h
    cases h1 : norm1 a with
    | error e => rw [h1] at h; cases h
    | ok a' =>
      rw [h1] at h
      cases h2 : normalize_gear rest with
      | error e => rw [h2] at h; cases h
      | ok rest' =>
        rw [h2] at h
        obtain rfl : a' :: rest' = recs2 := by injection h
        rcases List.mem_cons.mp hr with rfl | hmem
        · exact norm1_ok_gear a r h1
        · exact ih rest' h2 hmem

/-! ## Claim theorems: the tabulator -/

def owlbearRec : JValue := JValue.obj [("name", JValue.str "Owlbear"), ("gear", JValue.str "")]

def wolfRec : JValue := JValue.obj [("name", JValue.str "Wolf")]

/-- C4 (counterexample): on the claim's own example
`[{"name":"Owlbear","gear":""}, {"name":"Wolf"}]` the tabulator's header is
`name,gear` — the "gear" column is last, not first — so the claimed header
`gear,name` is wrong. -/
theorem C4_counterexample :
    json_to_csv (JValue.arr [owlbearRec, wolfRec]) =
      .ok ⟨["name", "gear"],
        [[JValue.str "Owlbear", JValue.str "None"],
         [JValue.str "Wolf", JValue.str "None"]]⟩
    ∧ (["name", "gear"] : List String) ≠ ["gear", "name"] :=
  ⟨rfl, by decide⟩

/-- C4 (amended): the CSV column order is the union of the record keys with
"gear" removed, sorted in Python's string order, and the "gear" column
appended as the last column (it is present even when no record has a "gear"
key); on the claim's example the header row is `name,gear`. -/
theorem C4_amended :
    (∀ recs : List JValue,
      (build_fieldnames recs).getLast? = some "gear" ∧
      List.Pairwise (fun a b => strLe a b = true) (build_fieldnames recs).dropLast ∧
      ∀ k, k ∈ build_fieldnames recs ↔ (k = "gear" ∨ ∃ r ∈ recs, k ∈ recKeys r)) ∧
    json_to_csv (JValue.arr [owlbearRec, wolfRec]) =
      .ok ⟨["name", "gear"],
        [[JValue.str "Owlbear", JValue.str "None"],
         [JValue.str "Wolf", JValue.str "None"]]⟩ := by
  refine ⟨fun recs => ⟨?_, ?_, ?_⟩, rfl⟩
  · exact List.getLast?_concat _
  · rw [build_fieldnames, List.dropLast_concat]
    exact List.sorted_insertionSort _ _
  · intro k
    simp only [build_fieldnames, List.mem_append, List.mem_insertionSort,
      List.mem_filter, List.mem_dedup, List.mem_flatMap, List.mem_singleton,
      decide_eq_true_eq]
    constructor
    · rintro (⟨⟨r, hr, hk⟩, _⟩ | rfl)
      · exact Or.inr ⟨r, hr, hk⟩
      · exact Or.inl rfl
    · rintro (rfl | ⟨r, hr, hk⟩)
      · exact Or.inr rfl
      · by_cases hg : k = "gear"
        · exact Or.inr hg
        · exact Or.inl ⟨⟨r, hr, hk⟩, hg⟩

/-- `not isinstance(gear_val, str) or not gear_val.strip()`, phrased as the
claim does: the record's "gear" value is absent, not a string, or
blank/whitespace-only. -/
def gearNeedsRewrite (fields : List (String × JValue)) : Bool :=
  match objGet fields "gear" with
  | none => true
  | some (JValue.str s) => pyStrip s == ""
  | some _ => true

/-- C5: `normalize_gear` rewrites the "gear" value of every record whose gear
value is absent, non-string, or blank to the literal "None", and leaves
records with a non-blank string gear value unchanged. -/
theorem C5_gear_rewrite (fields : List (String × JValue)) :
    (gearNeedsRewrite fields = true →
      norm1 (JValue.obj fields) =
        .ok (JValue.obj (objSet fields "gear" (JValue.str "None")))) ∧
    (gearNeedsRewrite fields = false → norm1 (JValue.obj fields) = .ok (JValue.obj fields)) := by
  have hEq : gearBlank ((objGet fields "gear").getD (JValue.str "")) =
      gearNeedsRewrite fields := by
    rw [gearNeedsRewrite]
    cases h : objGet fields "gear" with
    | none => rfl
    | some v => cases v <;> rfl
  constructor
  · intro h
    rw [norm1, hEq, h]
    rfl
  · intro h
    rw [norm1, hEq, h]
    rfl

/-- C5 witness: a whitespace-only gear value is rewritten to "None"; a
non-blank one is kept. -/
theorem C5_gear_rewrite_witness :
    norm1 (JValue.obj [("gear", JValue.str " ")]) =
      .ok (JValue.obj [("gear", JValue.str "None")]) ∧
    norm1 (JValue.obj [("gear", JValue.str "dagger")]) =
      .ok (JValue.obj [("gear", JValue.str "dagger")]) :=
  ⟨(C5_gear_rewrite [("gear", JValue.str " ")]).1 rfl,
   (C5_gear_rewrite [("gear", JValue.str "dagger")]).2 rfl⟩

/-- C8: when the top-level JSON value is not an array, `json_to_csv` raises
its explicit `ValueError` and produces no CSV output at all. -/
theorem C8_nonarray_fatal (v : JValue) (h : ∀ recs, v ≠ JValue.arr recs) :
    json_to_csv v = .error "JSON must be a top-level array of objects" := by
  cases v with
  | arr recs => exact absurd rfl (h recs)
  | null => rfl
  | bool b => rfl
  | num n => rfl
  | str s => rfl
  | obj fields => rfl

/-- C8 witness: a top-level JSON object is rejected. -/
theorem C8_nonarray_fatal_witness :
    json_to_csv (JValue.obj []) = .error "JSON must be a top-level array of objects" :=
  C8_nonarray_fatal (JValue.obj []) (fun _ h => JValue.noConfusion h)

/-- C9: invoked with zero arguments (`argv` is just the program name, or even
empty) or more than two, the tabulator exits via the usage message with
status 1 and never reaches the conversion (so no file is read or written). -/
theorem C9_usage_exit (argv : List String)
    (h : argv.length ≤ 1 ∨ 4 ≤ argv.length) :
    tabulatorMain argv =
      .usageExit
        ("Usage:  python " ++ basenameOf (argv.headD "") ++ " input.json [output.csv]") 1
    ∧ ∀ j c, tabulatorMain argv ≠ .convert j c := by
  have hc : ¬ (2 ≤ argv.length ∧ argv.length ≤ 3) := by omega
  refine ⟨by rw [tabulatorMain, if_neg hc], fun j c => ?_⟩
  rw [tabulatorMain, if_neg hc]
  intro hEq
  exact MainOutcome.noConfusion hEq

/-- C9 witness: invocation with no arguments at all. -/
theorem C9_usage_exit_witness :
    tabulatorMain ["json_to_csv.py"] =
      .usageExit "Usage:  python json_to_csv.py input.json [output.csv]" 1 :=
  (C9_usage_exit ["json_to_csv.py"] (Or.inl (by decide))).1

/-- C10: whatever record list the tabulator accepts, the written CSV has
"gear" as its last column and every data row's gear cell is a non-blank
string. -/
theorem C10_gear_column_invariant (recs : List JValue) (out : CsvOut)
    (h : json_to_csv (JValue.arr recs) = .ok out) :
    out.header.getLast? = some "gear" ∧
    ∀ row ∈ out.rows, ∃ s, row.getLast? = some (JValue.str s) ∧ pyStrip s ≠ "" := by
  rw [json_to_csv] at h
  cases hn : normalize_gear recs with
  | error e => rw [hn] at h; cases h
  | ok recs2 =>
    rw [hn] at h
    obtain rfl :
        (⟨build_fieldnames recs2,
          recs2.map (fun r => (build_fieldnames recs2).map (getField r))⟩ : CsvOut)
          = out := by injection h
    constructor
    · exact List.getLast?_concat _
    · intro row hrow
      obtain ⟨r, hr, rfl⟩ := List.mem_map.mp hrow
      obtain ⟨fields, s, rfl, hg, hs⟩ := normalize_gear_ok_mem recs recs2 hn r hr
      refine ⟨s, ?_, hs⟩
      simp [build_fieldnames, List.map_append, List.getLast?_concat, getField, hg]

/-- C10 witness: a record with no "gear" key still yields a final "gear"
column with the non-blank cell "None". -/
theorem C10_gear_column_invariant_witness :
    (⟨["name", "gear"], [[JValue.str "Wolf", JValue.str "None"]]⟩ : CsvOut).header.getLast?
        = some "gear" ∧
    ∀ row ∈ (⟨["name", "gear"], [[JValue.str "Wolf", JValue.str "None"]]⟩ : CsvOut).rows,
      ∃ s, row.getLast? = some (JValue.str s) ∧ pyStrip s ≠ "" :=
  C10_gear_column_invariant [JValue.obj [("name", JValue.str "Wolf")]] _ rfl

/-! ## Claim theorems: the HTML name fallback (C6) -/

/-- An HTML document with a CR table row but no `h1`/`h2` heading. -/
def headlessDoc : HtmlDoc :=
  { heading := none,
    trs := [[⟨CellTag.th, "CR"⟩, ⟨CellTag.td, "1/4"⟩]],
    lis := [], paras := [], strings := [] }

/-- C6 (code bug): on a document with no level-1/level-2 heading the code
does not fall back to the filename stem — `(soup.select_one("h1, h2") or
{}).get_text()` calls `get_text` on a plain `dict` and raises
`AttributeError`, so extraction fails instead of succeeding. -/
theorem C6_no_heading_crash :
    parse_html headlessDoc "imp" "imp.html" =
      .error "AttributeError: dict object has no attribute get_text" := rfl

/-! ## Claim theorems: CR extraction (C1) -/

/-- An HTML document whose CR cell carries the usual XP suffix. -/
def impDoc : HtmlDoc :=
  { heading := some "Imp",
    trs := [[⟨CellTag.th, "CR"⟩, ⟨CellTag.td, "1/4 (XP 50)"⟩]],
    lis := [], paras := [], strings := [] }

/-- A Markdown document whose CR field carries the usual XP suffix. -/
def impMdText : String := "# Imp\n**CR** 1/4 (XP 50)"

/-- C1 (counterexample): the Markdown extractor stores the raw CR field
value; with field value `1/4 (XP 50)` the emitted `cr` is the whole value,
not the first digit/dot/slash token `1/4` the claim requires. -/
theorem C1_counterexample :
    (parse_md impMdText "imp" "imp.md").map MonsterRecord.cr = some "1/4 (XP 50)" ∧
    crToken "1/4 (XP 50)" = "1/4" ∧
    ("1/4 (XP 50)" : String) ≠ "1/4" :=
  ⟨rfl, rfl, by decide⟩

/-- C1 (amended): for HTML documents the extracted CR is the first
digit/dot/slash token of the "cr" entry (falling back to "challenge
rating" when "cr" is absent or empty), and the document is skipped exactly
when that token is empty; for Markdown documents the extracted CR is the
raw field value under the same fallback, and the document is skipped
exactly when that raw value is absent or empty. -/
theorem C1_cr_extraction :
    (∀ (doc : HtmlDoc) (stem fn htext : String), doc.heading = some htext →
      (crToken (crRaw (buildRows doc)) = "" → parse_html doc stem fn = .ok none) ∧
      (crToken (crRaw (buildRows doc)) ≠ "" →
        (parse_html doc stem fn).map (Option.map MonsterRecord.cr)
          = .ok (some (crToken (crRaw (buildRows doc)))))) ∧
    (∀ text stem fn : String,
      (crRaw (mdFields text) = "" → parse_md text stem fn = none) ∧
      (crRaw (mdFields text) ≠ "" →
        (parse_md text stem fn).map MonsterRecord.cr
          = some (crRaw (mdFields text)))) := by
  constructor
  · intro doc stem fn htext hh
    obtain ⟨hd, trs, lis, paras, strings⟩ := doc
    obtain rfl : hd = some htext := hh
    constructor
    · intro hcr
      simp only [parse_html]
      rw [if_pos hcr]
    · intro hcr
      simp only [parse_html]
      rw [if_neg hcr]
      rfl
  · intro text stem fn
    constructor
    · intro hcr
      simp only [parse_md]
      rw [if_pos (show mdCr text = "" from hcr)]
    · intro hcr
      simp only [parse_md]
      rw [if_neg (show ¬ mdCr text = "" from hcr)]
      rfl

/-- C1 witness: both extractors at a concrete document with CR `1/4 (XP 50)`. -/
theorem C1_cr_extraction_witness :
    (parse_html impDoc "imp" "imp.html").map (Option.map MonsterRecord.cr)
        = .ok (some (crToken (crRaw (buildRows impDoc)))) ∧
    (parse_md impMdText "imp" "imp.md").map MonsterRecord.cr
        = some (crRaw (mdFields impMdText)) :=
  ⟨(C1_cr_extraction.1 impDoc "imp" "imp.html" "Imp" rfl).2 (by decide),
   (C1_cr_extraction.2 impMdText "imp" "imp.md").2 (by decide)⟩

/-! ## Claim theorems: the HTML type scan (C7) -/

/-- Modelled from the claim's wording only (to be compared with
`findTypeTxt`): scan paragraphs in order and stop only at the first one
whose candidate — second span's cleaned text when two or more spans,
`extract_type_from_em` of the single span otherwise — is non-empty. -/
def typeScanSpec : List (List String) → String
  | [] => ""
  | ems :: rest =>
    let candidate :=
      match ems with
      | [] => ""
      | [single] => extract_type_from_em single
      | _ :: second :: _ => clean second
    if candidate = "" then typeScanSpec rest else candidate

/-- A document whose first paragraph has two italic spans, the second of
them empty, and whose second paragraph has a proper type line. -/
def twoEmDoc : HtmlDoc :=
  { heading := some "X",
    trs := [[⟨CellTag.th, "CR"⟩, ⟨CellTag.td, "13"⟩]],
    lis := [],
    paras := [["Foo", ""], ["Large dragon, chaotic evil"]],
    strings := [] }

/-- C7 (counterexample): on `twoEmDoc` the code stops at the first
paragraph even though its candidate (the second span's cleaned text) is
empty, emitting `type = ""`; a scan that stops only at a non-empty
candidate (the claim) would continue and produce `Dragon`. -/
theorem C7_counterexample :
    (parse_html twoEmDoc "x" "x.html").map (Option.map MonsterRecord.type)
        = .ok (some "") ∧
    typeFinal (typeScanSpec twoEmDoc.paras) = "Dragon" ∧
    ("" : String) ≠ "Dragon" :=
  ⟨rfl, rfl, by decide⟩

/-- C7 (amended): the type scan stops at the first paragraph with italic
spans *unconditionally* when it has two or more spans (taking the second
span's cleaned text even if empty); only in the single-span case does it
skip paragraphs whose `extract_type_from_em` candidate is empty.  The
chosen text is then truncated at the first `(`, stripped and
canonicalised, and that is the emitted `type` field. -/
theorem C7_type_scan :
    (∀ (doc : HtmlDoc) (stem fn : String) (rec : MonsterRecord),
      parse_html doc stem fn = .ok (some rec) →
      rec.type = typeFinal (findTypeTxt doc.paras)) ∧
    (findTypeTxt [] = "") ∧
    (∀ rest, findTypeTxt ([] :: rest) = findTypeTxt rest) ∧
    (∀ e1 e2 es rest, findTypeTxt ((e1 :: e2 :: es) :: rest) = clean e2) ∧
    (∀ e rest, extract_type_from_em e ≠ "" →
      findTypeTxt ([e] :: rest) = extract_type_from_em e) ∧
    (∀ e rest, extract_type_from_em e = "" →
      findTypeTxt ([e] :: rest) = findTypeTxt rest) := by
  refine ⟨?_, rfl, fun rest => rfl, fun e1 e2 es rest => rfl, ?_, ?_⟩
  · intro doc stem fn rec h
    obtain ⟨hd, trs, lis, paras, strings⟩ := doc
    cases hd with
    | none => exact absurd h (by simp [parse_html])
    | some htext =>
      simp only [parse_html] at h
      split at h
      · exact absurd h (by simp)
      · obtain rfl : _ = rec := by injection h with h2; injection h2
        rfl
  · intro e rest h
    simp [findTypeTxt, h]
  · intro e rest h
    simp [findTypeTxt, h]

/-- C7 witness: the single-span equations at concrete inputs. -/
theorem C7_type_scan_witness :
    findTypeTxt [["Large dragon, chaotic evil"]] = "dragon" ∧
    findTypeTxt [["large"], ["Huge beast, unaligned"]] = "beast" := by
  constructor
  · rw [C7_type_scan.2.2.2.2.1 "Large dragon, chaotic evil" [] (by decide)]
    decide
  · rw [C7_type_scan.2.2.2.2.2 "large" [["Huge beast, unaligned"]] (by decide),
      C7_type_scan.2.2.2.2.1 "Huge beast, unaligned" [] (by decide)]
    decide

/-! ## Support lemmas: case-insensitive search and line splitting (C3)

`parse_md` lowers each *line* and tests plain substring containment; the
claim speaks about the *document text*.  The lemmas below show the two
agree for the phrase "legendary actions": matching is re-expressed over
the raw characters (`ciPrefix`/`ciContains`), splitting on line
terminators and stripping are shown not to create or destroy occurrences
of a pattern that is non-empty, newline-free and whitespace-bounded. -/

/-- The pattern character `p` can never match a lowered whitespace
character. -/
def missesWs (p : Char) : Prop :=
  ∀ c : Char, c.isWhitespace = true → (p == lowerChar c) = false

def headMisses : List Char → Prop
  | [] => True
  | p :: _ => missesWs p

def lastMisses : List Char → Prop
  | [] => True
  | [p] => missesWs p
  | _ :: q :: rest => lastMisses (q :: rest)

/-- `List.isPrefixOf pat (cs.map lowerChar)`, re-expressed over `cs`. -/
def ciPrefix : List Char → List Char → Bool
  | [], _ => true
  | _ :: _, [] => false
  | p :: ps, c :: cs => (p == lowerChar c) && ciPrefix ps cs

/-- `containsPat pat (cs.map lowerChar)`, re-expressed over `cs`. -/
def ciContains (pat : List Char) : List Char → Bool
  | [] => pat.isEmpty
  | c :: rest => ciPrefix pat (c :: rest) || ciContains pat rest

theorem isPrefixOf_map_lower (P : List Char) :
    ∀ cs : List Char, P.isPrefixOf (cs.map lowerChar) = ciPrefix P cs := by
  induction P with
  | nil => intro cs; cases cs <;> rfl
  | cons p ps ih =>
    intro cs
    cases cs with
    | nil => rfl
    | cons c rest => simp [List.isPrefixOf, ciPrefix, ih]

theorem containsPat_map_lower (P : List Char) :
    ∀ cs : List Char, containsPat P (cs.map lowerChar) = ciContains P cs := by
  intro cs
  induction cs with
  | nil => rfl
  | cons c rest ih =>
    show (P.isPrefixOf (lowerChar c :: rest.map lowerChar) || containsPat P (rest.map lowerChar))
        = _
    rw [show lowerChar c :: rest.map lowerChar = (c :: rest).map lowerChar from rfl,
      isPrefixOf_map_lower, ih]
    rfl

theorem missesWs_char (p : Char)
    (h1 : (p == ' ') = false) (h2 : (p == '\t') = false)
    (h3 : (p == '\r') = false) (h4 : (p == '\n') = false) : missesWs p := by
  intro c hc
  have hc' : c = ' ' ∨ c = '\t' ∨ c = '\r' ∨ c = '\n' := by
    simp [Char.isWhitespace] at hc
    tauto
  rcases hc' with rfl | rfl | rfl | rfl
  · exact h1
  · exact h2
  · exact h3
  · exact h4

theorem splitLinesL_ne_nil (cs : List Char) : splitLinesL cs ≠ [] := by
  cases cs with
  | nil => simp [splitLinesL]
  | cons c rest =>
    rw [splitLinesL]
    split
    · simp
    · split <;> simp

theorem ciPrefix_newline_head (P : List Char) (c : Char) (hne : P ≠ [])
    (hn : '\n' ∉ P) (hr : '\r' ∉ P) (hc : c = '\n' ∨ c = '\r') (rest : List Char) :
    ciPrefix P (c :: rest) = false := by
  cases P with
  | nil => exact absurd rfl hne
  | cons p ps =>
    have hpc : (p == lowerChar c) = false := by
      rcases hc with rfl | rfl
      · exact beq_eq_false_iff_ne.mpr (fun h => hn (h ▸ List.mem_cons_self p ps))
      · exact beq_eq_false_iff_ne.mpr (fun h => hr (h ▸ List.mem_cons_self p ps))
    simp [ciPrefix, hpc]

theorem ciPrefix_headSeg (P : List Char) (hn : '\n' ∉ P) (hr : '\r' ∉ P) :
    ∀ cs : List Char, ciPrefix P cs = ciPrefix P ((splitLinesL cs).headD []) := by
  intro cs
  induction cs generalizing P with
  | nil => simp [splitLinesL]
  | cons c rest ih =>
    by_cases hc : c = '\n' ∨ c = '\r'
    · rw [splitLinesL, if_pos hc]
      cases P with
      | nil => rfl
      | cons p ps =>
        rw [ciPrefix_newline_head (p :: ps) c (by simp) hn hr hc rest]
        rfl
    · obtain ⟨s, ss, hsplit⟩ : ∃ s ss, splitLinesL rest = s :: ss := by
        cases h : splitLinesL rest with
        | nil => exact absurd h (splitLinesL_ne_nil rest)
        | cons s ss => exact ⟨s, ss, rfl⟩
      rw [splitLinesL, if_neg hc, hsplit]
      cases P with
      | nil => rfl
      | cons p ps =>
        have ihp : ciPrefix ps rest = ciPrefix ps ((splitLinesL rest).headD []) :=
          ih ps (fun h => hn (List.mem_cons_of_mem p h))
            (fun h => hr (List.mem_cons_of_mem p h))
        rw [hsplit] at ihp
        simp [ciPrefix, ihp]

theorem ciContains_splitLines (P : List Char)
    (hne : P ≠ []) (hn : '\n' ∉ P) (hr : '\r' ∉ P) :
    ∀ cs : List Char,
      (ciContains P cs = true ↔ ∃ seg ∈ splitLinesL cs, ciContains P seg = true) := by
  intro cs
  induction cs with
  | nil =>
    have h0 : ciContains P [] = P.isEmpty := rfl
    simp [splitLinesL, h0, List.isEmpty_iff, hne]
  | cons c rest ih =>
    by_cases hc : c = '\n' ∨ c = '\r'
    · rw [splitLinesL, if_pos hc]
      have h1 : ciContains P (c :: rest) = ciContains P rest := by
        rw [ciContains, ciPrefix_newline_head P c hne hn hr hc rest, Bool.false_or]
      have h2 : ciContains P [] = P.isEmpty := rfl
      rw [h1, ih]
      simp [h2, List.isEmpty_iff, hne]
    · obtain ⟨s, ss, hsplit⟩ : ∃ s ss, splitLinesL rest = s :: ss := by
        cases h : splitLinesL rest with
        | nil => exact absurd h (splitLinesL_ne_nil rest)
        | cons s ss => exact ⟨s, ss, rfl⟩
      rw [splitLinesL, if_neg hc, hsplit]
      have hpre : ciPrefix P (c :: rest) = ciPrefix P (c :: s) := by
        have := ciPrefix_headSeg P hn hr (c :: rest)
        rw [splitLinesL, if_neg hc, hsplit] at this
        exact this
      have hrest : ciContains P rest = true ↔ ∃ seg ∈ s :: ss, ciContains P seg = true := by
        rw [ih, hsplit]
      rw [ciContains, Bool.or_eq_true, hpre]
      constructor
      · rintro (hp | hcont)
        · exact ⟨c :: s, by simp, by rw [ciContains, hp, Bool.true_or]⟩
        · rcases hrest.mp hcont with ⟨seg, hm, hs⟩
          rcases List.mem_cons.mp hm with rfl | hm'
          · refine ⟨c :: seg, by simp, ?_⟩
            rw [ciContains, hs, Bool.or_true]
          · exact ⟨seg, by simp [hm'], hs⟩
      · rintro ⟨seg, hm, hs⟩
        rcases List.mem_cons.mp hm with rfl | hm'
        · rw [ciContains, Bool.or_eq_true] at hs
          rcases hs with hp | hcont
          · exact Or.inl hp
          · exact Or.inr (hrest.mpr ⟨s, by simp, hcont⟩)
        · exact Or.inr (hrest.mpr ⟨seg, by simp [hm'], hs⟩)

theorem lastMisses_tail (p q : Char) (rest : List Char)
    (h : lastMisses (p :: q :: rest)) : lastMisses (q :: rest) := h

theorem lastMisses_exists :
    ∀ P : List Char, P ≠ [] → lastMisses P → ∃ q ∈ P, missesWs q := by
  intro P
  induction P with
  | nil => intro h; exact absurd rfl h
  | cons p ps ih =>
    intro _ hl
    cases ps with
    | nil => exact ⟨p, List.mem_cons_self p [], hl⟩
    | cons q rest =>
      obtain ⟨q', hq', hm⟩ := ih (by simp) (lastMisses_tail p q rest hl)
      exact ⟨q', List.mem_cons_of_mem p hq', hm⟩

theorem ciContains_dropWhile_ws (P : List Char) (hne : P ≠ []) (hh : headMisses P) :
    ∀ cs : List Char, ciContains P (cs.dropWhile Char.isWhitespace) = ciContains P cs := by
  intro cs
  induction cs with
  | nil => rfl
  | cons c rest ih =>
    by_cases hw : c.isWhitespace = true
    · rw [List.dropWhile_cons_of_pos hw, ih]
      cases P with
      | nil => exact absurd rfl hne
      | cons p ps =>
        have hpc : (p == lowerChar c) = false := hh c hw
        rw [ciContains]
        show _ = (ciPrefix (p :: ps) (c :: rest) || ciContains (p :: ps) rest)
        rw [show ciPrefix (p :: ps) (c :: rest) = ((p == lowerChar c) && ciPrefix ps rest)
            from rfl, hpc, Bool.false_and, Bool.false_or]
    · rw [List.dropWhile_cons_of_neg hw]

theorem ciPrefix_all_ws :
    ∀ (P w : List Char), (∃ q ∈ P, missesWs q) → (∀ c ∈ w, c.isWhitespace = true) →
      ciPrefix P w = false := by
  intro P
  induction P with
  | nil => intro w h _; simp at h
  | cons p ps ih =>
    intro w hex hw
    cases w with
    | nil => rfl
    | cons c w' =>
      obtain ⟨q, hq, hm⟩ := hex
      rcases List.mem_cons.mp hq with rfl | hq'
      · rw [show ciPrefix (q :: ps) (c :: w') = ((q == lowerChar c) && ciPrefix ps w')
            from rfl, hm c (hw c (List.mem_cons_self c w')), Bool.false_and]
      · rw [show ciPrefix (p :: ps) (c :: w') = ((p == lowerChar c) && ciPrefix ps w')
            from rfl,
          ih w' ⟨q, hq', hm⟩ (fun d hd => hw d (List.mem_cons_of_mem c hd)),
          Bool.and_false]

theorem ciContains_all_ws (P : List Char) (hex : ∃ q ∈ P, missesWs q) :
    ∀ w : List Char, (∀ c ∈ w, c.isWhitespace = true) → ciContains P w = false := by
  intro w
  induction w with
  | nil =>
    intro _
    obtain ⟨q, hq, _⟩ := hex
    have : P ≠ [] := fun h => by subst h; cases hq
    simpa [ciContains, List.isEmpty_iff] using this
  | cons c w' ih =>
    intro hw
    rw [ciContains, ciPrefix_all_ws P (c :: w') hex hw, Bool.false_or]
    exact ih (fun d hd => hw d (List.mem_cons_of_mem c hd))

theorem ciPrefix_append_ws :
    ∀ (P xs w : List Char), lastMisses P → (∀ c ∈ w, c.isWhitespace = true) →
      ciPrefix P (xs ++ w) = ciPrefix P xs := by
  intro P
  induction P with
  | nil => intro xs w _ _; cases xs <;> rfl
  | cons p ps ih =>
    intro xs w hl hw
    cases xs with
    | nil =>
      rw [List.nil_append]
      rw [ciPrefix_all_ws (p :: ps) w (lastMisses_exists (p :: ps) (by simp) hl) hw]
      rfl
    | cons x xs' =>
      rw [List.cons_append]
      rw [show ciPrefix (p :: ps) (x :: (xs' ++ w)) =
          ((p == lowerChar x) && ciPrefix ps (xs' ++ w)) from rfl]
      rw [show ciPrefix (p :: ps) (x :: xs') =
          ((p == lowerChar x) && ciPrefix ps xs') from rfl]
      cases ps with
      | nil => rfl
      | cons q rest => rw [ih xs' w (lastMisses_tail p q rest hl) hw]

theorem ciContains_append_ws (P : List Char) (hne : P ≠ []) (hl : lastMisses P) :
    ∀ (xs w : List Char), (∀ c ∈ w, c.isWhitespace = true) →
      ciContains P (xs ++ w) = ciContains P xs := by
  intro xs
  induction xs with
  | nil =>
    intro w hw
    rw [List.nil_append,
      ciContains_all_ws P (lastMisses_exists P hne hl) w hw]
    cases P with
    | nil => exact absurd rfl hne
    | cons p ps => rfl
  | cons x xs' ih =>
    intro w hw
    rw [List.cons_append, ciContains,
      show (x :: (xs' ++ w)) = ((x :: xs') ++ w) from rfl,
      ciPrefix_append_ws P (x :: xs') w hl hw, ih w hw, ciContains]

theorem rstrip_decomp (cs : List Char) :
    cs = (cs.reverse.dropWhile Char.isWhitespace).reverse
      ++ (cs.reverse.takeWhile Char.isWhitespace).reverse := by
  conv_lhs => rw [← List.reverse_reverse cs,
    ← List.takeWhile_append_dropWhile (p := Char.isWhitespace) (l := cs.reverse)]
  rw [List.reverse_append]

theorem ciContains_pyStrip (P : List Char) (hne : P ≠ [])
    (hh : headMisses P) (hl : lastMisses P) (cs : List Char) :
    ciContains P (pyStripL cs) = ciContains P cs := by
  rw [pyStripL]
  have hws : ∀ c ∈ ((cs.dropWhile Char.isWhitespace).reverse.takeWhile
      Char.isWhitespace).reverse, c.isWhitespace = true := by
    intro c hc
    exact List.mem_takeWhile_imp (List.mem_reverse.mp hc)
  calc ciContains P ((cs.dropWhile Char.isWhitespace).reverse.dropWhile
          Char.isWhitespace).reverse
      = ciContains P (((cs.dropWhile Char.isWhitespace).reverse.dropWhile
          Char.isWhitespace).reverse
          ++ ((cs.dropWhile Char.isWhitespace).reverse.takeWhile
              Char.isWhitespace).reverse) := by
        rw [ciContains_append_ws P hne hl _ _ hws]
    _ = ciContains P (cs.dropWhile Char.isWhitespace) := by
        rw [← rstrip_decomp (cs.dropWhile Char.isWhitespace)]
    _ = ciContains P cs := ciContains_dropWhile_ws P hne hh cs

/-- The claim-side containment test: Python `pat.lower() in s.lower()`. -/
def textContainsCI (s pat : String) : Bool :=
  containsPat (pat.data.map lowerChar) (s.data.map lowerChar)

theorem legendary_facts :
    legendaryPhrase ≠ [] ∧ '\n' ∉ legendaryPhrase ∧ '\r' ∉ legendaryPhrase := by
  refine ⟨by decide, by decide, by decide⟩

theorem legendary_headMisses : headMisses legendaryPhrase :=
  missesWs_char 'l' (by decide) (by decide) (by decide) (by decide)

theorem legendary_lastMisses : lastMisses legendaryPhrase :=
  missesWs_char 's' (by decide) (by decide) (by decide) (by decide)

/-- The per-line lowered substring test of `parse_md` agrees with the
whole-document case-insensitive substring test. -/
theorem md_legendary (text : String) :
    ((pyLines text).any
        (fun ln => containsPat legendaryPhrase (ln.data.map lowerChar)) = true)
      ↔ textContainsCI text "legendary actions" = true := by
  obtain ⟨hne, hn, hr⟩ := legendary_facts
  have hmap : ("legendary actions".data.map lowerChar) = legendaryPhrase := by decide
  rw [textContainsCI, hmap, containsPat_map_lower]
  rw [ciContains_splitLines legendaryPhrase hne hn hr text.data]
  rw [List.any_eq_true]
  constructor
  · rintro ⟨ln, hln, hci⟩
    rw [containsPat_map_lower] at hci
    rw [pyLines, List.mem_filter] at hln
    obtain ⟨hmem, hnz⟩ := hln
    obtain ⟨seg, hseg, hsegEq⟩ := List.mem_map.mp hmem
    refine ⟨seg, hseg, ?_⟩
    have : ln.data = pyStripL seg := by rw [← hsegEq]
    rw [this] at hci
    rw [← ciContains_pyStrip legendaryPhrase hne legendary_headMisses
      legendary_lastMisses seg]
    exact hci
  · rintro ⟨seg, hseg, hci⟩
    rw [← ciContains_pyStrip legendaryPhrase hne legendary_headMisses
      legendary_lastMisses seg] at hci
    refine ⟨String.mk (pyStripL seg), ?_, ?_⟩
    · rw [pyLines, List.mem_filter]
      refine ⟨List.mem_map.mpr ⟨seg, hseg, rfl⟩, ?_⟩
      have hnz : pyStripL seg ≠ [] := by
        intro h
        rw [h] at hci
        have : ciContains legendaryPhrase [] = legendaryPhrase.isEmpty := rfl
        rw [this] at hci
        exact absurd (List.isEmpty_iff.mp hci) hne
      simpa using fun h => hnz (by
        have := congrArg String.data h
        simpa using this)
    · rw [containsPat_map_lower]
      exact hci

/-! ## Claim theorems: the legendary-actions flag (C3) -/

/-- An HTML document whose only text node contains "legendary actions" as
a substring, but preceded by a word character. -/
def nonLegDoc : HtmlDoc :=
  { heading := some "X",
    trs := [[⟨CellTag.th, "CR"⟩, ⟨CellTag.td, "13"⟩]],
    lis := [], paras := [],
    strings := ["The nonlegendary actions of this beast"] }

/-- C3 (counterexample): the HTML search uses the word-bounded pattern
`\blegendary actions\b`, so a text node containing the substring inside a
longer word ("nonlegendary actions") yields `hasLegendaryActions = "No"`
even though the document text contains the case-insensitive substring. -/
theorem C3_counterexample :
    (parse_html nonLegDoc "x" "x.html").map (Option.map MonsterRecord.hasLegendaryActions)
        = .ok (some "No") ∧
    textContainsCI "The nonlegendary actions of this beast" "legendary actions" = true ∧
    ("No" : String) ≠ "Yes" :=
  ⟨rfl, by decide, by decide⟩

/-- C3 (amended): for HTML documents the flag is "Yes" iff some text node
contains a case-insensitive, word-bounded match of "legendary actions"
(the `\b` anchors of the code's regex); for Markdown documents the flag
is "Yes" iff the document text contains the case-insensitive substring,
exactly as the claim states. -/
theorem C3_legendary_flag :
    (∀ (doc : HtmlDoc) (stem fn : String) (rec : MonsterRecord),
      parse_html doc stem fn = .ok (some rec) →
      (rec.hasLegendaryActions = "Yes"
        ↔ doc.strings.any (fun s => legSearch false s.data) = true)) ∧
    (∀ (text stem fn : String) (rec : MonsterRecord),
      parse_md text stem fn = some rec →
      (rec.hasLegendaryActions = "Yes"
        ↔ textContainsCI text "legendary actions" = true)) := by
  constructor
  · intro doc stem fn rec h
    obtain ⟨hd, trs, lis, paras, strings⟩ := doc
    cases hd with
    | none => exact absurd h (by simp [parse_html])
    | some htext =>
      simp only [parse_html] at h
      split at h
      · exact absurd h (by simp)
      · obtain rfl : _ = rec := by injection h with h2; injection h2
        show (if (strings.any fun s => legSearch false s.data) = true then "Yes" else "No")
            = "Yes" ↔ _
        by_cases hleg : (strings.any fun s => legSearch false s.data) = true
        · simp [hleg]
        · simp [hleg]
  · intro text stem fn rec h
    simp only [parse_md] at h
    split at h
    · exact absurd h (by simp)
    · obtain rfl : _ = rec := by injection h
      rw [← md_legendary text]
      show (if ((pyLines text).any fun ln =>
            containsPat legendaryPhrase (ln.data.map lowerChar)) = true
          then "Yes" else "No") = "Yes" ↔ _
      by_cases hleg : ((pyLines text).any fun ln =>
          containsPat legendaryPhrase (ln.data.map lowerChar)) = true
      · simp [hleg]
      · simp [hleg]

/-- A Markdown document mentioning Legendary Actions in running text. -/
def legMdText : String := "# Imp\n**CR** 5\nIt has Legendary Actions."

/-- An HTML document with a word-bounded occurrence in a text node. -/
def legDoc : HtmlDoc :=
  { heading := some "X",
    trs := [[⟨CellTag.th, "CR"⟩, ⟨CellTag.td, "13"⟩]],
    lis := [], paras := [],
    strings := ["Legendary Actions"] }

/-- C3 witness: a Markdown document saying "Legendary Actions" yields
"Yes", and the HTML side at a document with a word-bounded occurrence. -/
theorem C3_legendary_flag_witness :
    Option.map MonsterRecord.hasLegendaryActions (parse_md legMdText "imp" "imp.md")
        = some "Yes" ∧
    (parse_html legDoc "x" "x.html").map (Option.map MonsterRecord.hasLegendaryActions)
        = .ok (some "Yes") := by
  constructor
  · have h := (C3_legendary_flag.2 legMdText "imp" "imp.md" _ rfl).mpr (by decide)
    rw [show parse_md legMdText "imp" "imp.md" = some _ from rfl, Option.map_some']
    rw [h]
  · have h := (C3_legendary_flag.1 legDoc "x" "x.html" _ rfl).mpr (by decide)
    rw [show parse_html legDoc "x" "x.html" = .ok (some _) from rfl]
    rw [Except.map, Option.map_some']
    rw [h]

/-! ## Support lemmas: no raw newline in extracted fields (C2) -/

def noNewline (s : String) : Prop := '\n' ∉ s.data

instance (s : String) : Decidable (noNewline s) :=
  inferInstanceAs (Decidable ('\n' ∉ s.data))

def digitsOnly (s : String) : Prop := s.data.all Char.isDigit = true

theorem mem_collapseWsAux :
    ∀ (cs : List Char) (b : Bool) (c : Char), c ∈ collapseWsAux cs b →
      c = ' ' ∨ (c ∈ cs ∧ c.isWhitespace = false) := by
  intro cs
  induction cs with
  | nil => intro b c h; simp [collapseWsAux] at h
  | cons d rest ih =>
    intro b c h
    rw [collapseWsAux] at h
    by_cases hw : d.isWhitespace = true
    · rw [if_pos hw] at h
      cases b with
      | false =>
        rw [if_neg (by simp)] at h
        rcases List.mem_cons.mp h with rfl | h'
        · exact Or.inl rfl
        · rcases ih true c h' with h1 | ⟨h2, h3⟩
          · exact Or.inl h1
          · exact Or.inr ⟨List.mem_cons_of_mem d h2, h3⟩
      | true =>
        rw [if_pos rfl] at h
        rcases ih true c h with h1 | ⟨h2, h3⟩
        · exact Or.inl h1
        · exact Or.inr ⟨List.mem_cons_of_mem d h2, h3⟩
    · rw [if_neg hw] at h
      rcases List.mem_cons.mp h with rfl | h'
      · exact Or.inr ⟨List.mem_cons_self c rest, by simpa using hw⟩
      · rcases ih false c h' with h1 | ⟨h2, h3⟩
        · exact Or.inl h1
        · exact Or.inr ⟨List.mem_cons_of_mem d h2, h3⟩

theorem mem_pyStripL (cs : List Char) (c : Char) (h : c ∈ pyStripL cs) : c ∈ cs := by
  rw [pyStripL, List.mem_reverse] at h
  have h1 := (List.dropWhile_sublist Char.isWhitespace).mem h
  rw [List.mem_reverse] at h1
  exact (List.dropWhile_sublist Char.isWhitespace).mem h1

theorem clean_noNewline (s : String) : noNewline (clean s) := by
  intro h
  have h1 : '\n' ∈ collapseWsL s.data := mem_pyStripL _ _ h
  rcases mem_collapseWsAux s.data false '\n' h1 with h2 | ⟨_, h3⟩
  · exact absurd h2 (by decide)
  · exact absurd h3 (by decide)

theorem strip_leading_punct_noNewline (s : String) (h : noNewline s) :
    noNewline (strip_leading_punct s) := by
  intro hc
  exact h ((List.dropWhile_sublist _).mem hc)

theorem pyStrip_noNewline (s : String) (h : noNewline s) : noNewline (pyStrip s) := by
  intro hc
  exact h (mem_pyStripL _ _ hc)

theorem mem_takeUntilPat (pat : List Char) :
    ∀ (cs : List Char) (c : Char), c ∈ takeUntilPat pat cs → c ∈ cs := by
  intro cs
  induction cs with
  | nil => intro c h; simp [takeUntilPat] at h
  | cons d rest ih =>
    intro c h
    rw [takeUntilPat] at h
    split at h
    · cases h
    · rcases List.mem_cons.mp h with rfl | h'
      · exact List.mem_cons_self c rest
      · exact List.mem_cons_of_mem d (ih c h')

theorem mem_replaceLFuel (pat rep : List Char) :
    ∀ (n : Nat) (cs : List Char) (c : Char),
      c ∈ replaceLFuel pat rep n cs → c ∈ rep ∨ c ∈ cs := by
  intro n
  induction n with
  | zero => intro cs c h; exact Or.inr h
  | succ n ih =>
    intro cs c h
    cases cs with
    | nil => cases h
    | cons d rest =>
      rw [replaceLFuel] at h
      split at h
      · rcases List.mem_append.mp h with h1 | h2
        · exact Or.inl h1
        · rcases ih _ c h2 with h3 | h4
          · exact Or.inl h3
          · exact Or.inr (List.mem_of_mem_drop h4)
      · rcases List.mem_cons.mp h with rfl | h2
        · exact Or.inr (List.mem_cons_self c rest)
        · rcases ih rest c h2 with h3 | h4
          · exact Or.inl h3
          · exact Or.inr (List.mem_cons_of_mem d h4)

theorem pyReplace_noNewline (s pat rep : String)
    (hs : noNewline s) (hrep : noNewline rep) : noNewline (pyReplace s pat rep) := by
  intro hc
  rcases mem_replaceLFuel pat.data rep.data s.data.length s.data '\n' hc with h1 | h2
  · exact hrep h1
  · exact hs h2

theorem mem_firstRunL (p : Char → Bool) (cs : List Char) (c : Char)
    (h : c ∈ firstRunL p cs) : p c = true :=
  List.mem_takeWhile_imp h

theorem number_only_digits (s : String) : digitsOnly (number_only s) := by
  rw [digitsOnly, List.all_eq_true]
  intro c hc
  exact mem_firstRunL _ _ _ hc

theorem digitsOnly_noNewline (s : String) (h : digitsOnly s) : noNewline s := by
  intro hc
  rw [digitsOnly, List.all_eq_true] at h
  have := h '\n' hc
  exact absurd this (by decide)

theorem crToken_noNewline (s : String) : noNewline (crToken s) := by
  intro hc
  have := mem_firstRunL _ _ _ hc
  exact absurd this (by decide)

theorem lowerChar_ne_newline (c : Char) (h : c ≠ '\n') : lowerChar c ≠ '\n' := by
  unfold lowerChar
  split <;> first | decide | exact h

theorem upperChar_ne_newline (c : Char) (h : c ≠ '\n') : upperChar c ≠ '\n' := by
  unfold upperChar
  split <;> first | decide | exact h

theorem pyCapitalize_noNewline (s : String) (h : noNewline s) :
    noNewline (pyCapitalize s) := by
  rw [pyCapitalize]
  split
  · intro hc; cases hc
  · rename_i c rest heq
    intro hc
    rcases List.mem_cons.mp hc with hc1 | hc2
    · have hcne : c ≠ '\n' := by
        intro hc'
        exact h (by rw [heq, hc']; exact List.mem_cons_self _ _)
      exact upperChar_ne_newline c hcne hc1.symm
    · obtain ⟨d, hd, hde⟩ := List.mem_map.mp hc2
      have hdne : d ≠ '\n' := by
        intro hd'
        exact h (by rw [heq]; exact List.mem_cons_of_mem c (hd' ▸ hd))
      exact lowerChar_ne_newline d hdne hde

theorem lookupRows_mem :
    ∀ (d : List (String × String)) (k v : String), lookupRows d k = some v → (k, v) ∈ d := by
  intro d
  induction d with
  | nil => intro k v h; cases h
  | cons p rest ih =>
    intro k v h
    obtain ⟨k', v'⟩ := p
    rw [lookupRows] at h
    split at h
    · rename_i heq
      obtain rfl : v' = v := by injection h
      subst heq
      exact List.mem_cons_self _ _
    · exact List.mem_cons_of_mem _ (ih k v h)

theorem canonical_type_noNewline (txt : String) (h : noNewline txt) :
    noNewline (canonical_type txt) := by
  rw [canonical_type]
  split
  · rename_i v hv
    have hall : ∀ p ∈ canonTypeTable, noNewline p.2 := by decide
    exact hall _ (lookupRows_mem _ _ _ hv)
  · exact pyCapitalize_noNewline txt h

/-- All values of a label→value mapping are newline-free. -/
def rowsNoNewline (d : List (String × String)) : Prop := ∀ kv ∈ d, noNewline kv.2

theorem lookupRows_noNewline (d : List (String × String)) (hd : rowsNoNewline d)
    (k : String) : noNewline ((lookupRows d k).getD "") := by
  cases hv : lookupRows d k with
  | none => intro hc; cases hc
  | some v => exact hd (k, v) (lookupRows_mem d k v hv)

theorem dictSet_rowsNoNewline :
    ∀ (d : List (String × String)), rowsNoNewline d →
      ∀ (k v : String), noNewline v → rowsNoNewline (dictSet d k v) := by
  intro d
  induction d with
  | nil =>
    intro _ k v hv kv hkv
    rcases List.mem_singleton.mp hkv with rfl
    exact hv
  | cons p rest ih =>
    obtain ⟨k', v'⟩ := p
    intro hd k v hv kv hkv
    rw [dictSet] at hkv
    split at hkv
    · rcases List.mem_cons.mp hkv with rfl | h'
      · exact hv
      · exact hd kv (List.mem_cons_of_mem _ h')
    · rcases List.mem_cons.mp hkv with rfl | h'
      · exact hd _ (List.mem_cons_self _ _)
      · exact ih (fun x hx => hd x (List.mem_cons_of_mem _ hx)) k v hv kv h'

theorem foldl_preserve {β : Type} (P : List (String × String) → Prop)
    (f : List (String × String) → β → List (String × String)) :
    ∀ (l : List β), (∀ d x, x ∈ l → P d → P (f d x)) →
      ∀ d, P d → P (List.foldl f d l) := by
  intro l
  induction l with
  | nil => intro _ d h; simpa using h
  | cons x xs ih =>
    intro hf d h
    exact ih (fun d' y hy => hf d' y (List.mem_cons_of_mem x hy)) (f d x)
      (hf d x (List.mem_cons_self x xs) h)

theorem buildRows_noNewline (doc : HtmlDoc) : rowsNoNewline (buildRows doc) := by
  rw [buildRows]
  apply foldl_preserve rowsNoNewline _ doc.lis
  · intro d li _ hd
    obtain ⟨st, txt⟩ := li
    cases st with
    | none => exact hd
    | some sTxt =>
      exact dictSet_rowsNoNewline d hd _ _
        (strip_leading_punct_noNewline _ (clean_noNewline _))
  · apply foldl_preserve rowsNoNewline _ doc.trs
    · intro d cells _ hd
      cases hre : rowEntry cells with
      | none => exact hd
      | some hv =>
        obtain ⟨h1, v1⟩ := hv
        exact dictSet_rowsNoNewline d hd _ _
          (strip_leading_punct_noNewline _ (clean_noNewline _))
    · intro kv hkv
      cases hkv

theorem crRaw_noNewline (d : List (String × String)) (hd : rowsNoNewline d) :
    noNewline (crRaw d) := by
  cases hv : lookupRows d "cr" with
  | none =>
    have he : crRaw d = (lookupRows d "challenge rating").getD "" := by rw [crRaw, hv]
    rw [he]
    exact lookupRows_noNewline d hd "challenge rating"
  | some v =>
    have he : crRaw d =
        if v = "" then (lookupRows d "challenge rating").getD "" else v := by
      rw [crRaw, hv]
    rw [he]
    by_cases hv0 : v = ""
    · rw [if_pos hv0]
      exact lookupRows_noNewline d hd "challenge rating"
    · rw [if_neg hv0]
      exact hd ("cr", v) (lookupRows_mem d _ _ hv)

theorem mem_of_getLastOpt :
    ∀ (cs : List Char) (c : Char), cs.getLast? = some c → c ∈ cs := by
  intro cs
  induction cs with
  | nil => intro c h; cases h
  | cons d rest ih =>
    intro c h
    cases rest with
    | nil =>
      obtain rfl : d = c := by injection h
      exact List.mem_cons_self _ _
    | cons e rest' =>
      rw [List.getLast?_cons_cons] at h
      exact List.mem_cons_of_mem d (ih c h)

theorem mem_restAfterWs (cs g : List Char) (h : restAfterWs cs = some g) :
    ∀ c ∈ g, c ∈ cs := by
  rw [restAfterWs] at h
  split at h
  · rename_i d ds hds
    obtain rfl : d :: ds = g := by injection h
    intro c hc
    rw [← hds] at hc
    exact (List.dropWhile_sublist _).mem hc
  · split at h
    · rename_i c' hl
      obtain rfl : [c'] = g := by injection h
      intro c hc
      rcases List.mem_singleton.mp hc with rfl
      exact mem_of_getLastOpt cs c hl
    · cases h

theorem mem_matchFieldTail (cs g : List Char) (h : matchFieldTail cs = some g) :
    ∀ c ∈ g, c ∈ cs := by
  cases cs with
  | nil => cases h
  | cons d rest =>
    rw [matchFieldTail] at h
    split at h
    · split at h
      · rename_i g' hg'
        obtain rfl : g' = g := by injection h
        intro c hc
        exact List.mem_cons_of_mem d (mem_restAfterWs rest _ hg' c hc)
      · exact mem_restAfterWs (d :: rest) g h
    · exact mem_restAfterWs (d :: rest) g h

theorem mdFieldAux_step {d : Char} {rest : List Char} {acc lab val : List Char}
    (ih : ∀ acc lab val : List Char, mdFieldAux acc rest = some (lab, val) →
      (∀ c ∈ lab, c ∈ acc ∨ c ∈ rest) ∧ ∀ c ∈ val, c ∈ rest)
    (h : mdFieldAux (d :: acc) rest = some (lab, val)) :
    (∀ c ∈ lab, c ∈ acc ∨ c ∈ d :: rest) ∧ ∀ c ∈ val, c ∈ d :: rest := by
  obtain ⟨ih1, ih2⟩ := ih (d :: acc) lab val h
  constructor
  · intro c hc
    rcases ih1 c hc with h1 | h2
    · rcases List.mem_cons.mp h1 with rfl | h3
      · exact Or.inr (List.mem_cons_self _ _)
      · exact Or.inl h3
    · exact Or.inr (List.mem_cons_of_mem _ h2)
  · intro c hc
    exact List.mem_cons_of_mem _ (ih2 c hc)

theorem mem_mdFieldAux :
    ∀ (cs acc lab val : List Char), mdFieldAux acc cs = some (lab, val) →
      (∀ c ∈ lab, c ∈ acc ∨ c ∈ cs) ∧ ∀ c ∈ val, c ∈ cs := by
  intro cs
  induction cs with
  | nil => intro acc lab val h; cases h
  | cons d rest ih =>
    intro acc lab val h
    rcases rest with _ | ⟨e1, rest1⟩
    · exact mdFieldAux_step ih h
    rcases rest1 with _ | ⟨e2, rest2⟩
    · have hcond : ∀ tail : List Char, [e1] = '*' :: '*' :: tail → False := by
        intro tail heq
        injection heq with _ h2
        injection h2
      rw [mdFieldAux.eq_3 acc d [e1] hcond] at h
      exact mdFieldAux_step ih h
    by_cases h12 : e1 = '*' ∧ e2 = '*'
    · obtain ⟨rfl, rfl⟩ := h12
      rw [mdFieldAux.eq_2] at h
      cases hv : matchFieldTail rest2 with
      | some v =>
        rw [hv] at h
        simp only [Option.some.injEq, Prod.mk.injEq] at h
        obtain ⟨rfl, rfl⟩ := h
        constructor
        · intro c hc
          rw [List.mem_reverse] at hc
          rcases List.mem_cons.mp hc with rfl | h2
          · exact Or.inr (List.mem_cons_self _ _)
          · exact Or.inl h2
        · intro c hc
          have hmem := mem_matchFieldTail rest2 v hv c hc
          exact List.mem_cons_of_mem _
            (List.mem_cons_of_mem _ (List.mem_cons_of_mem _ hmem))
      | none =>
        rw [hv] at h
        exact mdFieldAux_step ih h
    · have hcond : ∀ tail : List Char, e1 :: e2 :: rest2 = '*' :: '*' :: tail → False := by
        intro tail heq
        injection heq with he1 hrest
        injection hrest with he2 _
        exact h12 ⟨he1, he2⟩
      rw [mdFieldAux.eq_3 acc d (e1 :: e2 :: rest2) hcond] at h
      exact mdFieldAux_step ih h

theorem mdFieldMatch_val_subset (ln lab val : String)
    (h : mdFieldMatch ln = some (lab, val)) : ∀ c ∈ val.data, c ∈ ln.data := by
  rw [mdFieldMatch] at h
  split at h
  · rename_i rest heq
    cases hma : mdFieldAux [] rest with
    | none => rw [hma] at h; cases h
    | some lv =>
      obtain ⟨l, v⟩ := lv
      rw [hma] at h
      simp only [Option.map_some', Option.some.injEq, Prod.mk.injEq] at h
      obtain ⟨rfl, rfl⟩ := h
      intro c hc
      have hv : c ∈ v := hc
      rcases (mem_mdFieldAux rest [] l v hma).2 c hv with h1
      rw [heq]
      exact List.mem_cons_of_mem _ (List.mem_cons_of_mem _ h1)
  · cases h

theorem splitLinesL_no_nl :
    ∀ (cs : List Char), ∀ seg ∈ splitLinesL cs, '\n' ∉ seg := by
  intro cs
  induction cs with
  | nil =>
    intro seg hseg
    rcases List.mem_singleton.mp hseg with rfl
    simp
  | cons c rest ih =>
    intro seg hseg
    rw [splitLinesL] at hseg
    split at hseg
    · rcases List.mem_cons.mp hseg with rfl | h'
      · simp
      · exact ih seg h'
    · rename_i hc
      cases hsp : splitLinesL rest with
      | nil => exact absurd hsp (splitLinesL_ne_nil rest)
      | cons s ss =>
        rw [hsp] at hseg
        rcases List.mem_cons.mp hseg with rfl | h'
        · intro hmem
          rcases List.mem_cons.mp hmem with rfl | h2
          · exact hc (Or.inl rfl)
          · exact ih s (hsp ▸ List.mem_cons_self s ss) h2
        · exact ih seg (hsp ▸ List.mem_cons_of_mem s h')

theorem pyLines_no_nl (text : String) (ln : String) (hln : ln ∈ pyLines text) :
    '\n' ∉ ln.data := by
  rw [pyLines, List.mem_filter] at hln
  obtain ⟨hmem, -⟩ := hln
  obtain ⟨seg, hseg, rfl⟩ := List.mem_map.mp hmem
  intro hc
  exact splitLinesL_no_nl text.data seg hseg (mem_pyStripL seg '\n' hc)

theorem mdFields_noNewline (text : String) : rowsNoNewline (mdFields text) := by
  rw [mdFields]
  apply foldl_preserve rowsNoNewline _ (pyLines text)
  · intro d ln hln hd
    cases hm : mdFieldMatch ln with
    | none => exact hd
    | some lv =>
      obtain ⟨lab, val⟩ := lv
      apply dictSet_rowsNoNewline d hd
      apply strip_leading_punct_noNewline
      apply pyStrip_noNewline
      intro hc
      exact pyLines_no_nl text ln hln (mdFieldMatch_val_subset ln lab val hm '\n' hc)
  · intro kv hkv
    cases hkv

theorem extract_type_from_em_noNewline (e : String) :
    noNewline (extract_type_from_em e) :=
  clean_noNewline _

theorem findTypeTxt_noNewline : ∀ paras : List (List String), noNewline (findTypeTxt paras) := by
  intro paras
  induction paras with
  | nil => intro hc; cases hc
  | cons ems rest ih =>
    cases ems with
    | nil => exact ih
    | cons e1 tail =>
      cases tail with
      | nil =>
        by_cases hc : extract_type_from_em e1 = ""
        · simpa [findTypeTxt, hc] using ih
        · simpa [findTypeTxt, hc] using extract_type_from_em_noNewline e1
      | cons e2 es => exact clean_noNewline e2

theorem typeFinal_noNewline (t : String) (h : noNewline t) : noNewline (typeFinal t) := by
  apply canonical_type_noNewline
  intro hc
  exact h (mem_takeUntilPat _ _ _ (mem_pyStripL _ _ hc))

/-! ## Claim theorems: the record invariants (C2) -/

/-- The amended data-model invariant: non-empty CR, digit-only AC/HP, a
Yes/No legendary flag, and no raw newline in any field except `file`,
which is the originating filename verbatim. -/
def recInvariant (rec : MonsterRecord) (fn : String) : Prop :=
  rec.cr ≠ "" ∧ digitsOnly rec.ac ∧ digitsOnly rec.hp ∧
  (rec.hasLegendaryActions = "Yes" ∨ rec.hasLegendaryActions = "No") ∧
  noNewline rec.name ∧ noNewline rec.cr ∧ noNewline rec.ac ∧ noNewline rec.hp ∧
  noNewline rec.languages ∧ noNewline rec.type ∧ noNewline rec.skills ∧
  noNewline rec.gear ∧ noNewline rec.source ∧ rec.file = fn

theorem yesNo_or (b : Bool) :
    (if b = true then "Yes" else "No") = "Yes" ∨
    (if b = true then "Yes" else "No") = "No" := by
  cases b
  · exact Or.inr rfl
  · exact Or.inl rfl

theorem source_noNewline (stem : String) (d : List (String × String))
    (hd : rowsNoNewline d) :
    noNewline (if pyEndsWith stem "_mm_2024" = true then "WotC SRD 5.2"
      else if containsPat " page".data ((lookupRows d "source").getD "").data = true then
        String.mk (takeUntilPat " page".data ((lookupRows d "source").getD "").data)
      else (lookupRows d "source").getD "") := by
  split
  · decide
  · split
    · intro hc
      exact (lookupRows_noNewline d hd "source") (mem_takeUntilPat _ _ _ hc)
    · exact lookupRows_noNewline d hd "source"

/-- A Markdown document with a CR, processed from a file whose name
contains a raw newline. -/
def nlMd : String := "# Imp\n**CR** 5"

/-- C2 (counterexample): the `file` field is the originating filename
verbatim; a filename containing a raw newline (legal on POSIX, and matched
by the `*.md` glob) produces an emitted record with a newline inside a
field value. -/
theorem C2_counterexample :
    (parse_md nlMd "a\nb" "a\nb.md").map MonsterRecord.file = some "a\nb.md" ∧
    ¬ noNewline "a\nb.md" :=
  ⟨rfl, by decide⟩

set_option maxHeartbeats 1600000 in
/-- C2 (amended): every record emitted by either extractor has a non-empty
`cr`, digit-only-or-empty `ac`/`hp`, `hasLegendaryActions` in
{"Yes","No"}, and no raw newline in any field other than `file`; `file`
is the originating filename verbatim (so it contains a newline exactly
when the filename does). -/
theorem C2_record_invariants :
    (∀ (doc : HtmlDoc) (stem fn : String) (rec : MonsterRecord),
      parse_html doc stem fn = .ok (some rec) → recInvariant rec fn) ∧
    (∀ (text stem fn : String) (rec : MonsterRecord),
      parse_md text stem fn = some rec → recInvariant rec fn) := by
  constructor
  · intro doc stem fn rec h
    obtain ⟨hd, trs, lis, paras, strings⟩ := doc
    cases hd with
    | none => exact absurd h (by simp [parse_html])
    | some htext =>
      simp only [parse_html] at h
      split at h
      · exact absurd h (by simp)
      · rename_i hcr
        obtain rfl : _ = rec := by injection h with h2; injection h2
        rw [recInvariant]
        refine ⟨hcr, number_only_digits _, number_only_digits _, ?_,
          clean_noNewline _, crToken_noNewline _,
          digitsOnly_noNewline _ (number_only_digits _),
          digitsOnly_noNewline _ (number_only_digits _),
          lookupRows_noNewline _ (buildRows_noNewline _) _,
          typeFinal_noNewline _ (findTypeTxt_noNewline _),
          pyReplace_noNewline _ _ _
            (lookupRows_noNewline _ (buildRows_noNewline _) _) (by decide),
          lookupRows_noNewline _ (buildRows_noNewline _) _, ?_, rfl⟩
        · exact yesNo_or _
        · exact source_noNewline stem _ (buildRows_noNewline _)
  · intro text stem fn rec h
    simp only [parse_md] at h
    split at h
    · exact absurd h (by simp)
    · rename_i hcr
      obtain rfl : _ = rec := by injection h
      rw [recInvariant]
      refine ⟨hcr, number_only_digits _, number_only_digits _, ?_,
        clean_noNewline _, crRaw_noNewline _ (mdFields_noNewline text),
        digitsOnly_noNewline _ (number_only_digits _),
        digitsOnly_noNewline _ (number_only_digits _),
        lookupRows_noNewline _ (mdFields_noNewline text) _, ?_,
        pyReplace_noNewline _ _ _
          (lookupRows_noNewline _ (mdFields_noNewline text) _) (by decide),
        lookupRows_noNewline _ (mdFields_noNewline text) _, ?_, rfl⟩
      · exact yesNo_or _
      · apply typeFinal_noNewline
        split
        · split
          · exact extract_type_from_em_noNewline _
          · exact lookupRows_noNewline _ (mdFields_noNewline text) "type"
        · exact lookupRows_noNewline _ (mdFields_noNewline text) "type"
      · exact source_noNewline stem _ (mdFields_noNewline text)

/-- The record `parse_html` emits for `impDoc`. -/
def impRec : MonsterRecord :=
  { name := "Imp", cr := "1/4", ac := "", hp := "", languages := "", type := "",
    skills := "", gear := "", source := "", hasLegendaryActions := "No",
    file := "imp.html" }

/-- The record `parse_md` emits for `impMdText` (the `*cr` type comes from
the italic-marker fallback scanning the second line). -/
def impMdRec : MonsterRecord :=
  { name := "Imp", cr := "1/4 (XP 50)", ac := "", hp := "", languages := "",
    type := "*cr", skills := "", gear := "", source := "",
    hasLegendaryActions := "No", file := "imp.md" }

/-- C2 witness: the invariant at the concrete records of both extractors. -/
theorem C2_record_invariants_witness :
    recInvariant impRec "imp.html" ∧ recInvariant impMdRec "imp.md" :=
  ⟨C2_record_invariants.1 impDoc "imp" "imp.html" impRec rfl,
   C2_record_invariants.2 impMdText "imp" "imp.md" impMdRec rfl⟩
